import Mathlib

/-!
Verification development for the ANN index in `src/cpp/jakubelib.h` of the
MovieRecommender repository, instantiated as in `src/cpp/bindings.cpp`:
`JakubeIndex<int, int32_t, Jakube::Hamming, Jakube::Kiss64Random<uint64_t>>`.
All header fields (`int f`, `S = int`) and vector words (`T = int32_t`) are 32-bit
units; we model machine words as `Nat` values below `2^32` and signed quantities
as `Int` where the sign matters.  `S` item ids are non-negative in every reachable
state, so ids are modelled as `Nat`.
-/

namespace Jakube

/-- Population count of the low 32 bits of a word. -/
def popcount32 (w : ℕ) : ℕ :=
  ((List.range 32).filter (fun i => w.testBit i)).length

/-- `__builtin_popcountll` applied to an `int32_t` expression (jakubelib.h line 187):
the signed 32-bit value is implicitly converted to `unsigned long long`, which
sign-extends it, so a word with bit 31 set contributes 32 extra set bits. -/
def popcount_sext64 (w : ℕ) : ℕ :=
  if 2 ^ 31 ≤ w then 32 + popcount32 w else popcount32 w

/-- `Hamming::distance` (jakubelib.h 183-190): sum over the `f` words of the
popcount of the word-wise XOR (with the sign-extension effect above). -/
def hamming_distance (f : ℕ) (x y : List ℕ) : ℕ :=
  ((List.range f).map (fun i => popcount_sext64 ((x.getD i 0) ^^^ (y.getD i 0)))).sum

/-- `Hamming::margin` (jakubelib.h 192-197): for split bit `b`, the vector `y` is
on the right side iff bit `31 - b % 32` of word `b / 32` is set. -/
def margin_bit (b : ℕ) (y : List ℕ) : Bool :=
  (y.getD (b / 32) 0).testBit (31 - b % 32)

/-- One arena record, `Hamming::Node` (jakubelib.h 156-160):
`{ S n_descendants; S children[2]; T v[]; }`.  The `children` array and the value
area `v` are contiguous in memory, so a group node's inline id list occupies
`c0`, `c1` and then the leading entries of `v`. -/
structure HNode where
  nd : ℕ
  c0 : ℕ
  c1 : ℕ
  v : List ℕ
deriving Repr, DecidableEq

/-- Content of an untouched arena slot.  The C++ arena exposes uninitialized
bytes there; we model them with this fixed record (no claim reads such a slot). -/
def padNode : HNode := ⟨0, 0, 0, []⟩

/-- The mutable state of a `JakubeIndex` (jakubelib.h 274-285), minus the file
descriptor and the verbose flag.  The node arena `_nodes` is modelled as a list
of records; a NULL arena is the empty list with `nodes_size = 0`.  The random
source is threaded explicitly through the build functions. -/
structure IndexState where
  f : ℕ
  n_items : ℕ
  n_nodes : ℕ
  nodes_size : ℕ
  nodes : List HNode
  roots : List ℕ
  K : ℕ
  built : Bool
deriving Repr, DecidableEq

/-- The constructor `JakubeIndex(int f)` (jakubelib.h 288-292).
`_s = offsetof(Node, v) + f*sizeof(T) = 12 + 4*f` and
`_K = ((_s - offsetof(Node, children)) / sizeof(S)) - 2`. -/
def mkIndex (f : ℕ) : IndexState :=
  { f := f, n_items := 0, n_nodes := 0, nodes_size := 0, nodes := [], roots := [],
    K := ((12 + 4 * f - 4) / 4) - 2, built := false }

/-- `JakubeIndex::_allocate_size` (jakubelib.h 555-568): grow the arena to
`max(n, (size + 1) * 1.3)` records; `realloc` preserves existing records, new
records are uninitialized (`padNode`).  (The C++ computes `(size+1)*1.3` in
`double` and truncates to int; for every argument the truncated value is
`((size+1)*13)/10` because `1.3` rounds up as a double and the product of an
integer with it never falls below the exact rational.) -/
def allocate_size (st : IndexState) (n : ℕ) : IndexState :=
  if st.nodes_size < n then
    let newSize := max n (((st.nodes_size + 1) * 13) / 10)
    { st with nodes_size := newSize,
              nodes := st.nodes ++ List.replicate (newSize - st.nodes.length) padNode }
  else st

/-- `JakubeIndex::add_item` (jakubelib.h 302-321).  Fails (returns `none`) iff the
index is already built.  Writing the record only touches `n_descendants` and the
`f` value words; the children words of the slot keep their previous content. -/
def add_item (st : IndexState) (item : ℕ) (w : List ℕ) : Option IndexState :=
  if st.built then none
  else
    let st1 := allocate_size st (item + 1)
    let old := st1.nodes.getD item padNode
    let node : HNode :=
      { old with nd := 1, v := (List.range st.f).map (fun i => w.getD i 0) }
    let st2 := { st1 with nodes := st1.nodes.set item node }
    if st2.n_items ≤ item then some { st2 with n_items := item + 1 } else some st2

/-- Fold a sequence of `add_item` calls (each successful call updates the state). -/
def apply_adds (st : IndexState) (l : List (ℕ × List ℕ)) : IndexState :=
  l.foldl (fun s p => (add_item s p.1 p.2).getD s) st

/-- `JakubeIndex::get_item` (jakubelib.h 523-526): copy the `f` value words of
record `i`. -/
def get_item (st : IndexState) (i : ℕ) : List ℕ :=
  (List.range st.f).map (fun k => ((st.nodes.getD i padNode).v).getD k 0)

/-- `JakubeIndex::get_distance` (jakubelib.h 528-530); for Hamming
`normalized_distance` is the identity. -/
def get_distance (st : IndexState) (i j : ℕ) : ℕ :=
  hamming_distance st.f (st.nodes.getD i padNode).v (st.nodes.getD j padNode).v

/-- Modelled from the spec: the random source (`kissrandom.h`, included by
`bindings.cpp` and the test file but not present under `src/`).  Spec §4.2: a
deterministic PRNG offering `index(n) ∈ [0, n)` and a fair coin `flip()`.  We
model the draw sequence as an explicit stream of naturals; an exhausted stream
keeps returning 0.  All theorems below quantify over every stream, so nothing
depends on the concrete generator. -/
structure Rng where
  stream : List ℕ
deriving Repr, DecidableEq

/-- `random.index(n)`: next draw reduced into `[0, n)`. -/
def rng_index (r : Rng) (n : ℕ) : ℕ × Rng :=
  match r.stream with
  | [] => (0, r)
  | h :: t => (h % n, ⟨t⟩)

/-- `random.flip()`: fair coin. -/
def rng_flip (r : Rng) : ℕ × Rng :=
  match r.stream with
  | [] => (0, r)
  | h :: t => (h % 2, ⟨t⟩)

/-- Number of candidate vectors on the right side of split bit `b`
(the `cur_size` count in `Hamming::create_split`, jakubelib.h 216-228). -/
def count_right (b : ℕ) (vs : List (List ℕ)) : ℕ :=
  (vs.filter (fun v => margin_bit b v)).length

/-- The random phase of `Hamming::create_split` (jakubelib.h 216-229): up to
`max_iterations = 20` draws of a bit in `[0, dim)`, accepted when both sides are
non-empty.  Returns the last tried bit, whether it was accepted, and the
advanced random state. -/
def random_split_tries : ℕ → List (List ℕ) → ℕ → Rng → ℕ → ℕ × Bool × Rng
  | 0, _, _, r, last => (last, false, r)
  | Nat.succ k, vs, dim, r, _ =>
    let br := rng_index r dim
    if 0 < count_right br.1 vs ∧ count_right br.1 vs < vs.length then (br.1, true, br.2)
    else random_split_tries k vs dim br.2 br.1

/-- `Hamming::create_split` (jakubelib.h 209-249): 20 random tries, then a
brute-force scan of every bit `0, 1, …, dim-1`; when even that finds no
splitting bit, `v[0]` is left at the last scanned bit `dim - 1`. -/
def create_split (vs : List (List ℕ)) (f : ℕ) (r : Rng) : ℕ × Rng :=
  let dim := f * 8 * 4
  let t := random_split_tries 20 vs dim r 0
  if t.2.1 then (t.1, t.2.2)
  else
    match (List.range dim).find?
        (fun j => decide (0 < count_right j vs ∧ count_right j vs < vs.length)) with
    | some j => (j, t.2.2)
    | none => (dim - 1, t.2.2)

/-- `JakubeIndex::_split_imbalance` (jakubelib.h 710-715): `1.0` when either side
is empty, otherwise `max(ls/rs, rs/ls)`.  The C++ computes in `double`; over the
sizes involved the three facts used below (always `≥ 1`, hence never `< 0.95`
and always `> 0.99`) are identical for `double` and exact rationals. -/
def split_imbalance (l r : List ℕ) : ℚ :=
  if l.length = 0 ∨ r.length = 0 then 1
  else
    if mkRat l.length r.length ≤ mkRat r.length l.length
    then mkRat r.length l.length
    else mkRat l.length r.length

/-- Partition `indices` by the side of split bit `b` of each item's stored vector
(jakubelib.h 607-614): component 1 collects `side = false`, component 2 the
`side = true` ids, each in input order. -/
def partition_by_bit (st : IndexState) (b : ℕ) (indices : List ℕ) :
    List ℕ × List ℕ :=
  (indices.filter (fun j => !(margin_bit b (st.nodes.getD j padNode).v)),
   indices.filter (fun j => margin_bit b (st.nodes.getD j padNode).v))

/-- Result of the 3-attempt split loop: the two sides, the split bit written into
`v[0]`, the advanced random state, and how many attempts were executed. -/
structure SplitResult where
  part0 : List ℕ
  part1 : List ℕ
  b : ℕ
  rng : Rng
  attempts : ℕ
deriving Repr, DecidableEq

/-- The `for (attempt = 0; attempt < 3; attempt++)` split loop of
`JakubeIndex::_make_tree` (jakubelib.h 601-618), called with fuel 3: each round
creates a split, partitions, and breaks early iff the imbalance is `< 0.95`. -/
def split_attempt_loop : ℕ → IndexState → List (List ℕ) → List ℕ → Rng → SplitResult
  | 0, _, _, _, r => ⟨[], [], 0, r, 0⟩
  | Nat.succ k, st, vs, indices, r =>
    let s := create_split vs st.f r
    let part := partition_by_bit st s.1 indices
    if k = 0 ∨ split_imbalance part.1 part.2 < mkRat 19 20 then ⟨part.1, part.2, s.1, s.2, 1⟩
    else
      let rest := split_attempt_loop k st vs indices s.2
      ⟨rest.part0, rest.part1, rest.b, rest.rng, rest.attempts + 1⟩

/-- One fallback re-partition (jakubelib.h 626-631): assign each id to a side by
a coin flip, consuming flips in index order. -/
def coin_partition : List ℕ → Rng → (List ℕ × List ℕ) × Rng
  | [], r => (([], []), r)
  | j :: rest, r =>
    let c := rng_flip r
    let p := coin_partition rest c.2
    (if c.1 = 0 then (j :: p.1.1, p.1.2) else (p.1.1, j :: p.1.2), p.2)

/-- The random fallback loop of `_make_tree` (jakubelib.h 621-632), with explicit
fuel: while the split imbalance exceeds `0.99`, discard the partition and redraw
it by coin flips.  `none` means the fuel ran out with the guard still true. -/
def fallback_loop : ℕ → List ℕ → List ℕ × List ℕ → Rng →
    Option ((List ℕ × List ℕ) × Rng)
  | 0, _, part, r =>
    if split_imbalance part.1 part.2 > mkRat 99 100 then none else some (part, r)
  | Nat.succ k, indices, part, r =>
    if split_imbalance part.1 part.2 > mkRat 99 100 then
      let p := coin_partition indices r
      fallback_loop k indices p.1 p.2
    else some (part, r)

/-- `JakubeIndex::_make_tree` (jakubelib.h 574-646), with explicit fuel bounding
the loop iterations and the recursion depth (`none` = the fuel ran out, i.e. the
C++ ran longer than the fuel allows).  Returns the new node id, the updated
state, and the advanced random source.
* singleton shortcut (575-576), group-node shortcut (578-588) — both only when
  not root; the group record's id list overflows from `children` into `v`;
* candidate collection (590-596), three split attempts (601-618);
* the random fallback loop (621-632);
* `flip` orders the recursion so that side `0^flip` is built first (634-639);
* the internal record stores `n_descendants = is_root ? n_items : |indices|`,
  the two child ids and the split bit in `v[0]`; the remaining value words of
  the stack temporary are uninitialized (modelled as 0). -/
def make_tree : ℕ → IndexState → List ℕ → Bool → Rng → Option (ℕ × IndexState × Rng)
  | 0, _, _, _, _ => none
  | Nat.succ fuel, st, indices, is_root, r =>
    if indices.length = 1 ∧ ¬is_root then some (indices.headD 0, st, r)
    else if indices.length ≤ st.K ∧ ¬is_root then
      let st1 := allocate_size st (st.n_nodes + 1)
      let item := st1.n_nodes
      let old := st1.nodes.getD item padNode
      let node : HNode :=
        { nd := indices.length,
          c0 := indices.getD 0 old.c0,
          c1 := indices.getD 1 old.c1,
          v := (List.range st.f).map (fun i => indices.getD (i + 2) (old.v.getD i 0)) }
      some (item, { st1 with nodes := st1.nodes.set item node, n_nodes := st1.n_nodes + 1 }, r)
    else
      let vs := indices.map (fun j => (st.nodes.getD j padNode).v)
      let sres := split_attempt_loop 3 st vs indices r
      match fallback_loop fuel indices (sres.part0, sres.part1) sres.rng with
      | none => none
      | some (part, r2) =>
        let flip : ℕ := if part.1.length > part.2.length then 1 else 0
        let pa := if flip = 1 then part.2 else part.1
        let pb := if flip = 1 then part.1 else part.2
        match make_tree fuel st pa false r2 with
        | none => none
        | some (ca, stA, rA) =>
          match make_tree fuel stA pb false rA with
          | none => none
          | some (cb, stB, rB) =>
            let c0 := if flip = 1 then cb else ca
            let c1 := if flip = 1 then ca else cb
            let stC := allocate_size stB (stB.n_nodes + 1)
            let item := stC.n_nodes
            let node : HNode :=
              { nd := if is_root then st.n_items else indices.length,
                c0 := c0, c1 := c1,
                v := (List.range st.f).map (fun i => if i = 0 then sres.b else 0) }
            some (item,
              { stC with nodes := stC.nodes.set item node, n_nodes := stC.n_nodes + 1 }, rB)

/-- The tree loop of `JakubeIndex::build` (jakubelib.h 338-347): build `q` trees
over the full index list `[0, n_items)`, appending each root. -/
def build_trees : ℕ → ℕ → IndexState → Rng → Option (IndexState × Rng)
  | _, 0, st, r => some (st, r)
  | fuel, Nat.succ q, st, r =>
    match make_tree fuel st (List.range st.n_items) true r with
    | none => none
    | some (root, st', r') =>
      build_trees fuel q { st' with roots := st'.roots ++ [root] } r'

/-- `JakubeIndex::build` (jakubelib.h 323-355).  `some (false, _, _)` models the
early error returns (already built / no items); `some (true, _, _)` a completed
build; `none` means the fuel was exhausted, i.e. the C++ runs longer than the
given fuel. -/
def build (fuel : ℕ) (st : IndexState) (q : ℕ) (r : Rng) :
    Option (Bool × IndexState × Rng) :=
  if st.built then some (false, st, r)
  else if st.n_items = 0 then some (false, st, r)
  else
    match build_trees fuel q { st with n_nodes := st.n_items } r with
    | none => none
    | some (st', r') => some (true, { st' with built := true }, r')

/-- `Hamming::pq_initial_value<T>()` with `T = int32_t`
(jakubelib.h 169-172): `numeric_limits<int32_t>::max()`. -/
def pq_initial : ℤ := 2 ^ 31 - 1

/-- `Hamming::pq_distance` (jakubelib.h 164-167): decrement the key when the
query's side `margin` differs from the child number. -/
def pq_distance (d : ℤ) (margin child : ℕ) : ℤ :=
  d - (if margin ≠ child then 1 else 0)

/-- The greatest entry of a `std::priority_queue<pair<T, S>>`, i.e. the
lexicographic maximum of the (key, node id) pairs. -/
def pq_max : List (ℤ × ℕ) → Option (ℤ × ℕ)
  | [] => none
  | a :: rest =>
    match pq_max rest with
    | none => some a
    | some b => some (if b.1 < a.1 ∨ (b.1 = a.1 ∧ b.2 ≤ a.2) then a else b)

/-- `q.top(); q.pop()`: remove one occurrence of the maximal pair. -/
def pq_pop (q : List (ℤ × ℕ)) : Option ((ℤ × ℕ) × List (ℤ × ℕ)) :=
  match pq_max q with
  | none => none
  | some m => some (m, q.erase m)

/-- The ids stored inline in a group node (jakubelib.h 675-676): the first
`n_descendants` words of the children area, which runs over into `v`. -/
def group_children (node : HNode) : List ℕ :=
  (node.c0 :: node.c1 :: node.v).take node.nd

/-- The candidate-gathering loop of `JakubeIndex::_get_all_nns`
(jakubelib.h 665-682), with explicit fuel: pop the best entry; value nodes
(`n_descendants == 1` and id `< n_items`) are appended to `nns`, group nodes
(`n_descendants <= K`) contribute their inline ids, internal nodes push both
children with keys adjusted by `pq_distance`.  Stops when `nns` holds at least
`bound` ids or the queue is empty. -/
def gather : ℕ → IndexState → List ℕ → ℕ → List (ℤ × ℕ) → List ℕ → List ℕ
  | 0, _, _, _, _, nns => nns
  | Nat.succ fuel, st, v, bound, q, nns =>
    if bound ≤ nns.length then nns
    else
      match pq_pop q with
      | none => nns
      | some ((d, i), q') =>
        let node := st.nodes.getD i padNode
        if node.nd = 1 ∧ i < st.n_items then
          gather fuel st v bound q' (nns ++ [i])
        else if node.nd ≤ st.K then
          gather fuel st v bound q' (nns ++ group_children node)
        else
          let mg : ℕ := if margin_bit (node.v.getD 0 0) v then 1 else 0
          gather fuel st v bound
            ((pq_distance d mg 1, node.c1) :: (pq_distance d mg 0, node.c0) :: q') nns

/-- The value of `(int32_t)(z)` for an arbitrary integer expression:
two's-complement wrap into `[-2^31, 2^31)`. -/
def to_int32 (z : ℤ) : ℤ := (z + 2 ^ 31) % 2 ^ 32 - 2 ^ 31

/-- The effective candidate bound of `_get_all_nns` (jakubelib.h 656-658 and the
`(size_t)search_k` comparison at 665): exactly `-1` is replaced by
`n * roots_count` (stored back into the `int` variable), and the loop then
compares against the value converted to the 64-bit unsigned `size_t`. -/
def eff_search_k (n roots_count : ℕ) (sk : ℤ) : ℕ :=
  ((if sk = -1 then to_int32 (n * roots_count) else sk) % 2 ^ 64).toNat

/-- The duplicate-skipping scan over the sorted candidate list
(jakubelib.h 686-693): `last` starts at `-1` (matched by no id) and each id equal
to the previous one is dropped. -/
def dedup_scan : List ℕ → Option ℕ → List ℕ
  | [], _ => []
  | j :: rest, last =>
    if some j = last then dedup_scan rest last else j :: dedup_scan rest (some j)

/-- The distinct candidates that pass the `n_descendants == 1` re-rank filter
(jakubelib.h 685-697): sort, skip duplicates, keep value records. -/
def value_candidates (st : IndexState) (nns : List ℕ) : List ℕ :=
  (dedup_scan (List.insertionSort (· ≤ ·) nns) none).filter
    (fun j => (st.nodes.getD j padNode).nd == 1)

/-- The temporary query node (jakubelib.h 649-652): `f` words of the query
copied into a fresh record. -/
def query_node (f : ℕ) (v : List ℕ) : HNode :=
  { padNode with v := (List.range f).map (fun i => v.getD i 0) }

/-- The `(distance, id)` re-rank list `nns_dist` (jakubelib.h 686-697). -/
def rerank (st : IndexState) (v : List ℕ) (nns : List ℕ) : List (ℕ × ℕ) :=
  (value_candidates st nns).map
    (fun j => (hamming_distance st.f (query_node st.f v).v (st.nodes.getD j padNode).v, j))

/-- `std::pair<T, S>::operator<=`: lexicographic order on (distance, id). -/
def pair_le (a b : ℕ × ℕ) : Prop := a.1 < b.1 ∨ (a.1 = b.1 ∧ a.2 ≤ b.2)

instance : DecidableRel pair_le := fun a b =>
  inferInstanceAs (Decidable (a.1 < b.1 ∨ (a.1 = b.1 ∧ a.2 ≤ b.2)))

/-- `partial_sort(begin, begin + p, end)` followed by reading the first
`p = min(n, m)` entries (jakubelib.h 699-707): the `p` lexicographically
smallest pairs in ascending order. -/
def select_top (n : ℕ) (pairs : List (ℕ × ℕ)) : List (ℕ × ℕ) :=
  (List.insertionSort pair_le pairs).take (min n pairs.length)

/-- The candidate list produced by a `_get_all_nns` call: the heap starts with
one entry per root at the initial key (jakubelib.h 660-662). -/
def traversal_cands (fuel : ℕ) (st : IndexState) (v : List ℕ) (n : ℕ) (sk : ℤ) :
    List ℕ :=
  gather fuel st v (eff_search_k n st.roots.length sk)
    (st.roots.map (fun rt => (pq_initial, rt))) []

/-- The final `(distance, id)` rows emitted by `_get_all_nns`. -/
def query_rows (fuel : ℕ) (st : IndexState) (v : List ℕ) (n : ℕ) (sk : ℤ) :
    List (ℕ × ℕ) :=
  select_top n (rerank st v (traversal_cands fuel st v n sk))

/-- `JakubeIndex::get_nns_by_vector` / `_get_all_nns` (jakubelib.h 537-539,
648-708): the returned `(result, distances)` vectors (`normalized_distance` is
the identity for Hamming). -/
def get_nns_by_vector (fuel : ℕ) (st : IndexState) (v : List ℕ) (n : ℕ) (sk : ℤ) :
    List ℕ × List ℕ :=
  ((query_rows fuel st v n sk).map Prod.snd, (query_rows fuel st v n sk).map Prod.fst)

/-- `JakubeIndex::get_nns_by_item` (jakubelib.h 532-535): query with the stored
vector of `item`. -/
def get_nns_by_item (fuel : ℕ) (st : IndexState) (item n : ℕ) (sk : ℤ) :
    List ℕ × List ℕ :=
  get_nns_by_vector fuel st (st.nodes.getD item padNode).v n sk

/-- The serialized words of one arena record (4-byte fields in layout order). -/
def node_words (f : ℕ) (node : HNode) : List ℕ :=
  node.nd :: node.c0 :: node.c1 :: (List.range f).map (fun i => node.v.getD i 0)

/-- `JakubeIndex::save` (jakubelib.h 370-416), at 32-bit word granularity (every
header field and node word is 4 bytes): header `f, n_items, n_nodes,
nodes_size, K, roots_count`, then the roots, then the first `n_nodes` records of
the arena.  Fails (`none`) iff the index is not built. -/
def save (st : IndexState) : Option (List ℕ) :=
  if st.built then
    some ([st.f, st.n_items, st.n_nodes, st.nodes_size, st.K, st.roots.length]
      ++ st.roots ++ ((st.nodes.take st.n_nodes).map (node_words st.f)).flatten
    )
  else none

/-- `JakubeIndex::unload` (jakubelib.h 495-513): release the arena and reset all
size fields and the roots. -/
def unload (st : IndexState) : IndexState :=
  { st with nodes := [], roots := [], n_items := 0, n_nodes := 0, nodes_size := 0,
            built := false }

inductive LoadError
  | ioError
  | dimMismatch
deriving Repr, DecidableEq

/-- Chunk `count` records of `3 + f` words each out of a word stream. -/
def words_to_nodes (f : ℕ) : ℕ → List ℕ → List HNode
  | 0, _ => []
  | Nat.succ k, ws =>
    (match ws.take (3 + f) with
     | nd :: c0 :: c1 :: vrest => HNode.mk nd c0 c1 vrest
     | _ => padNode) :: words_to_nodes f k (ws.drop (3 + f))

/-- `JakubeIndex::load` (jakubelib.h 418-493).  The state is first torn down by
`unload` (line 419); a file too short to carry the first word reports an I/O
error; a dimension mismatch (441-446) reports `dimMismatch`.  Otherwise the
header words 1-5 and the roots are read sequentially — and the node arena is
then memory-mapped with length `_s * _n_nodes` from FILE OFFSET 0 (lines
477-481), so the mapped records start at the header bytes, not at the first
node record. -/
def load (st : IndexState) (file : List ℕ) : Option LoadError × IndexState :=
  let st0 := unload st
  match file.head? with
  | none => (some LoadError.ioError, st0)
  | some f_file =>
    if f_file ≠ st.f then (some LoadError.dimMismatch, st0)
    else
      let n_items := file.getD 1 0
      let n_nodes := file.getD 2 0
      let nodes_size := file.getD 3 0
      let k := file.getD 4 0
      let roots_count := file.getD 5 0
      let roots := (file.drop 6).take roots_count
      let arena := words_to_nodes st.f n_nodes (file.take ((3 + st.f) * n_nodes))
      (none,
       { st0 with n_items := n_items, n_nodes := n_nodes, nodes_size := nodes_size,
                  K := k, roots := roots, nodes := arena, built := true })

/-! Concrete states used by counterexamples and witnesses. -/

/-- The three items of the repository's own test (`test_jakube.cpp`, also §8
scenario 1/2 of the spec): `f = 1`, vectors `0b0011`, `0b0110`, `0b1111`. -/
def testAdds : List (ℕ × List ℕ) := [(0, [3]), (1, [6]), (2, [15])]

/-- The index state right before `index.build(5)` in the repository's test. -/
def testState : IndexState := apply_adds (mkIndex 1) testAdds

/-- A built single-tree index over two items (`f = 1`): records 0 and 1 are
value nodes with vectors `[1]` and `[7]`, record 2 is the root, an internal
node with split bit 0 and children `(c0, c1) = (1, 0)`. -/
def twoItemState : IndexState :=
  { f := 1, n_items := 2, n_nodes := 3, nodes_size := 3,
    nodes := [⟨1, 0, 0, [1]⟩, ⟨1, 0, 0, [7]⟩, ⟨2, 1, 0, [0]⟩],
    roots := [2], K := 1, built := true }

/-- A built index holding one item with vector `[5]`; its single tree's root is
the value record itself. -/
def oneItemState : IndexState :=
  { f := 1, n_items := 1, n_nodes := 1, nodes_size := 2,
    nodes := [⟨1, 0, 0, [5]⟩],
    roots := [0], K := 1, built := true }

/-- Three unbuilt items with vectors `[1]`, `[2]`, `[3]` (`f = 1`), used to
drive the split attempt loop directly. -/
def splitState : IndexState :=
  { f := 1, n_items := 3, n_nodes := 3, nodes_size := 3,
    nodes := [⟨1, 0, 0, [1]⟩, ⟨1, 0, 0, [2]⟩, ⟨1, 0, 0, [3]⟩],
    roots := [], K := 1, built := false }

/-- A random stream that makes the first split attempt draw bit 31 and the next
two attempts draw bit 30. -/
def splitRng : Rng := ⟨[31, 30, 30]⟩

/-! ### The split imbalance is always at least 1 -/

theorem one_le_split_imbalance (l r : List ℕ) : (1 : ℚ) ≤ split_imbalance l r := by
  unfold split_imbalance
  by_cases h : l.length = 0 ∨ r.length = 0
  · rw [if_pos h]
  · rw [if_neg h]
    push_neg at h
    have hl : (0 : ℚ) < l.length := by
      exact_mod_cast Nat.pos_of_ne_zero h.1
    have hr : (0 : ℚ) < r.length := by
      exact_mod_cast Nat.pos_of_ne_zero h.2
    rw [Rat.mkRat_eq_div, Rat.mkRat_eq_div]
    push_cast
    split_ifs with hab
    · rw [div_le_div_iff₀ hr hl] at hab
      have hlr : (l.length : ℚ) ≤ r.length := by nlinarith
      rw [one_le_div hl]
      exact hlr
    · rw [div_le_div_iff₀ hr hl, not_le] at hab
      have hrl : (r.length : ℚ) ≤ l.length := by nlinarith
      rw [one_le_div hr]
      exact hrl

theorem split_imbalance_gt (l r : List ℕ) : split_imbalance l r > mkRat 99 100 := by
  have h1 := one_le_split_imbalance l r
  have : (mkRat 99 100 : ℚ) < 1 := by
    rw [Rat.mkRat_eq_div]
    norm_num
  exact lt_of_lt_of_le this h1

theorem split_imbalance_not_lt (l r : List ℕ) : ¬ split_imbalance l r < mkRat 19 20 := by
  have h1 := one_le_split_imbalance l r
  have : (mkRat 19 20 : ℚ) < 1 := by
    rw [Rat.mkRat_eq_div]
    norm_num
  exact not_lt.mpr ((le_of_lt this).trans h1)

/-! ### The random fallback loop never exits, so every build diverges -/

theorem fallback_loop_eq_none (fuel : ℕ) :
    ∀ (indices : List ℕ) (part : List ℕ × List ℕ) (r : Rng),
      fallback_loop fuel indices part r = none := by
  induction fuel with
  | zero =>
    intro indices part r
    rw [fallback_loop, if_pos (split_imbalance_gt part.1 part.2)]
  | succ k ih =>
    intro indices part r
    rw [fallback_loop, if_pos (split_imbalance_gt part.1 part.2)]
    exact ih indices _ _

theorem make_tree_root_eq_none (fuel : ℕ) (st : IndexState) (indices : List ℕ)
    (r : Rng) : make_tree fuel st indices true r = none := by
  cases fuel with
  | zero => rfl
  | succ k =>
    rw [make_tree]
    simp only [not_true_eq_false, and_false, if_false]
    rw [fallback_loop_eq_none]

theorem build_trees_eq_none (fuel q : ℕ) (st : IndexState) (r : Rng) (hq : 1 ≤ q) :
    build_trees fuel q st r = none := by
  cases q with
  | zero => omega
  | succ k =>
    rw [build_trees, make_tree_root_eq_none]

/-- Any build on a non-empty, not-yet-built index runs out of every fuel: the
fallback loop's guard is invariantly true. -/
theorem build_eq_none (fuel : ℕ) (st : IndexState) (q : ℕ) (r : Rng)
    (hb : st.built = false) (hn : 1 ≤ st.n_items) (hq : 1 ≤ q) :
    build fuel st q r = none := by
  rw [build, hb, if_neg Bool.false_ne_true, if_neg (by omega), build_trees_eq_none]
  exact hq

/-- The split loop executed with its source fuel 3 never breaks early: the
result is exactly the third attempt's split, and three attempts are counted. -/
theorem split_attempt_loop_three (st : IndexState) (vs : List (List ℕ))
    (indices : List ℕ) (r : Rng) :
    split_attempt_loop 3 st vs indices r =
      ⟨(partition_by_bit st (create_split vs st.f
          (create_split vs st.f (create_split vs st.f r).2).2).1 indices).1,
       (partition_by_bit st (create_split vs st.f
          (create_split vs st.f (create_split vs st.f r).2).2).1 indices).2,
       (create_split vs st.f (create_split vs st.f (create_split vs st.f r).2).2).1,
       (create_split vs st.f (create_split vs st.f (create_split vs st.f r).2).2).2,
       3⟩ := by
  show split_attempt_loop (Nat.succ 2) st vs indices r = _
  rw [split_attempt_loop]
  rw [if_neg (not_or.mpr ⟨by omega, split_imbalance_not_lt _ _⟩)]
  rw [split_attempt_loop]
  rw [if_neg (not_or.mpr ⟨by omega, split_imbalance_not_lt _ _⟩)]
  rw [split_attempt_loop]
  rw [if_pos (Or.inl rfl)]

/-- C1: the spec claims `build(q)` terminates for every non-empty index and in
particular that the random-fallback loop in `_make_tree` exits after finitely
many iterations.  In the code `_split_imbalance` always returns a value `≥ 1 >
0.99`, so the fallback loop's guard is invariantly true: the loop never exits
for any input or random stream, and `build` never returns - it exhausts every
fuel bound.  (The repository's own test calls `index.build(5)` and checks the
results afterwards, so the claim reflects the intent and the code is the bug.) -/
theorem c1_build_never_terminates (fuel : ℕ) (st : IndexState) (q : ℕ) (r : Rng)
    (hb : st.built = false) (hn : 1 ≤ st.n_items) (hq : 1 ≤ q) :
    build fuel st q r = none
    ∧ ∀ (k : ℕ) (indices : List ℕ) (part : List ℕ × List ℕ) (r' : Rng),
        fallback_loop k indices part r' = none :=
  ⟨build_eq_none fuel st q r hb hn hq,
   fun k indices part r' => fallback_loop_eq_none k indices part r'⟩

theorem c1_build_never_terminates_witness :
    testState.built = false ∧ 1 ≤ testState.n_items ∧ (1 : ℕ) ≤ 5 ∧
      build 6 testState 5 ⟨[1, 2, 3]⟩ = none :=
  ⟨by decide, by decide, by decide,
   (c1_build_never_terminates 6 testState 5 ⟨[1, 2, 3]⟩ (by decide) (by decide)
      (by decide)).1⟩

/-- C2 (amended): the acceptance test against 0.95 is indeed never satisfied
(`_split_imbalance` always returns `≥ 1.0`), but as a consequence the builder
always runs ALL THREE iterations of the split loop and uses the partition
produced by the third attempt, not the first. -/
theorem c2_all_three_attempts (st : IndexState) (vs : List (List ℕ))
    (indices : List ℕ) (r : Rng) :
    (∀ l rr : List ℕ, (1 : ℚ) ≤ split_imbalance l rr)
    ∧ (split_attempt_loop 3 st vs indices r).attempts = 3
    ∧ (split_attempt_loop 3 st vs indices r).part0 =
        (partition_by_bit st (create_split vs st.f
          (create_split vs st.f (create_split vs st.f r).2).2).1 indices).1
    ∧ (split_attempt_loop 3 st vs indices r).part1 =
        (partition_by_bit st (create_split vs st.f
          (create_split vs st.f (create_split vs st.f r).2).2).1 indices).2 := by
  refine ⟨fun l rr => one_le_split_imbalance l rr, ?_, ?_, ?_⟩ <;>
    rw [split_attempt_loop_three]

/-- C2 counterexample: a concrete input on which the split loop performs three
attempts and returns a partition different from the first attempt's partition,
refuting "exits the 3-attempt loop after the first iteration, using the
partition produced by that first attempt". -/
theorem c2_counterexample :
    (split_attempt_loop 3 splitState (splitState.nodes.map HNode.v) [0, 1, 2]
        splitRng).attempts = 3
    ∧ (split_attempt_loop 3 splitState (splitState.nodes.map HNode.v) [0, 1, 2]
        splitRng).part0 = [0]
    ∧ (split_attempt_loop 3 splitState (splitState.nodes.map HNode.v) [0, 1, 2]
        splitRng).part1 = [1, 2]
    ∧ partition_by_bit splitState
        (create_split (splitState.nodes.map HNode.v) splitState.f splitRng).1
        [0, 1, 2] = ([1], [0, 2])
    ∧ (([0], [1, 2]) : List ℕ × List ℕ) ≠ ([1], [0, 2]) := by decide

/-- C9: the claim says two builds with the same seed, items and `q` produce
identical arena bytes after build and identical query answers.  The code never
reaches a post-build state: at the claim's own scenario (the three test items,
`build(5)`), `build` exhausts every fuel bound for EVERY random stream - in
particular for the stream of any seed - so no arena bytes or post-build query
results are ever produced to compare. -/
theorem c9_no_post_build_state (fuel : ℕ) (r : Rng) :
    build fuel testState 5 r = none :=
  build_eq_none fuel testState 5 r (by decide) (by decide) (by decide)

/-- C3 counterexample: on a built two-item index with one tree, a query with
`n = 1` behaves differently for `search_k = -2` than for
`search_k = n * number_of_trees = 1`: the `-2` run gathers 2 candidates (more
than `n * number_of_trees = 1`, so the loop is not bounded by it) and returns a
different answer, because `-2` is not replaced by the default but converted to
the huge unsigned bound `2^64 - 2`. -/
theorem c3_counterexample :
    get_nns_by_vector 10 twoItemState [0] 1 (-2) = ([0], [1])
    ∧ get_nns_by_vector 10 twoItemState [0] 1 1 = ([1], [3])
    ∧ (1 : ℕ) * twoItemState.roots.length = 1
    ∧ (traversal_cands 10 twoItemState [0] 1 (-2)).length = 2
    ∧ ¬ (traversal_cands 10 twoItemState [0] 1 (-2)).length ≤ 1
    ∧ (([0], [1]) : List ℕ × List ℕ) ≠ ([1], [3]) := by decide

/-- C3 (amended): only `search_k = -1` is replaced by `n * number_of_trees`;
every other negative `search_k` is kept and converted to `size_t`, so the
candidate-gathering loop runs with the huge bound `2^64 + search_k` (effectively
until the heap empties) instead of `n * number_of_trees`. -/
theorem c3_negative_search_k (st : IndexState) (v : List ℕ) (n fuel : ℕ) (sk : ℤ)
    (h31 : -2 ^ 31 ≤ sk) (hneg : sk < 0) (hm1 : sk ≠ -1) :
    traversal_cands fuel st v n sk
      = gather fuel st v (2 ^ 64 + sk).toNat
          (st.roots.map (fun rt => (pq_initial, rt))) []
    ∧ (n * st.roots.length < 2 ^ 31 →
        traversal_cands fuel st v n (-1)
          = gather fuel st v (n * st.roots.length)
              (st.roots.map (fun rt => (pq_initial, rt))) []) := by
  constructor
  · have hb : eff_search_k n st.roots.length sk = (2 ^ 64 + sk).toNat := by
      unfold eff_search_k
      rw [if_neg hm1]
      omega
    unfold traversal_cands
    rw [hb]
  · intro hsmall
    have hb : eff_search_k n st.roots.length (-1) = n * st.roots.length := by
      unfold eff_search_k to_int32
      rw [if_pos rfl]
      omega
    unfold traversal_cands
    rw [hb]

theorem c3_negative_search_k_witness :
    (-2 ^ 31 ≤ (-2 : ℤ)) ∧ ((-2 : ℤ) < 0) ∧ ((-2 : ℤ) ≠ -1)
    ∧ 1 * twoItemState.roots.length < 2 ^ 31
    ∧ traversal_cands 10 twoItemState [0] 1 (-2)
        = gather 10 twoItemState [0] ((2 : ℤ) ^ 64 + (-2 : ℤ)).toNat
            (twoItemState.roots.map (fun rt => (pq_initial, rt))) []
    ∧ traversal_cands 10 twoItemState [0] 1 (-1)
        = gather 10 twoItemState [0] (1 * twoItemState.roots.length)
            (twoItemState.roots.map (fun rt => (pq_initial, rt))) [] :=
  ⟨by decide, by decide, by decide, by decide,
   (c3_negative_search_k twoItemState [0] 1 10 (-2) (by decide) (by decide)
      (by decide)).1,
   (c3_negative_search_k twoItemState [0] 1 10 (-2) (by decide) (by decide)
      (by decide)).2 (by decide)⟩

/-! ### Properties of the re-rank pipeline (C4) -/

theorem dedup_scan_gt_nodup (l : List ℕ) :
    ∀ (m : Option ℕ), List.Sorted (· ≤ ·) l → (∀ x ∈ l, ∀ y, m = some y → y ≤ x) →
      (∀ x ∈ dedup_scan l m, ∀ y, m = some y → y < x) ∧ (dedup_scan l m).Nodup := by
  induction l with
  | nil =>
    intro m _ _
    exact ⟨fun x hx => absurd hx (List.not_mem_nil x), List.nodup_nil⟩
  | cons j t ih =>
    intro m hs hm
    have hst : List.Sorted (· ≤ ·) t := hs.of_cons
    have hjt : ∀ x ∈ t, j ≤ x := fun x hx => List.rel_of_sorted_cons hs x hx
    rw [dedup_scan]
    split_ifs with hj
    · -- the head equals `last` and is skipped
      have ih' := ih m hst (fun x hx y hy => hm x (List.mem_cons_of_mem j hx) y hy)
      exact ih'
    · -- the head is kept, `last` becomes `some j`
      have ih' := ih (some j) hst (fun x hx y hy => by
        injection hy with h
        exact h ▸ hjt x hx)
      constructor
      · intro x hx y hy
        rcases List.mem_cons.mp hx with hxj | hxt
        · subst hxj
          have hyx : y ≤ x := hm x (List.mem_cons_self x t) y hy
          have : some x ≠ m := fun h => hj h
          rcases lt_or_eq_of_le hyx with h | h
          · exact h
          · exact absurd (hy.trans (by rw [h])) (fun h' => hj h'.symm)
        · have := (ih'.1 x hxt j rfl)
          have hyj : y ≤ j := by
            have := hm j (List.mem_cons_self j t) y hy
            exact this
          exact lt_of_le_of_lt hyj (ih'.1 x hxt j rfl)
      · refine List.nodup_cons.mpr ⟨?_, ih'.2⟩
        intro hmem
        exact lt_irrefl j (ih'.1 j hmem j rfl)

theorem value_candidates_nodup (st : IndexState) (nns : List ℕ) :
    (value_candidates st nns).Nodup := by
  unfold value_candidates
  refine List.Nodup.filter _ ?_
  refine (dedup_scan_gt_nodup _ none (List.sorted_insertionSort _ _) ?_).2
  intro x _ y hy
  exact absurd hy (by simp)

theorem rerank_map_snd (st : IndexState) (v : List ℕ) (nns : List ℕ) :
    (rerank st v nns).map Prod.snd = value_candidates st nns := by
  unfold rerank
  rw [List.map_map]
  exact List.map_id _

instance : IsTotal (ℕ × ℕ) pair_le :=
  ⟨fun a b => by unfold pair_le; omega⟩

instance : IsTrans (ℕ × ℕ) pair_le :=
  ⟨fun a b c hab hbc => by unfold pair_le at *; omega⟩

theorem select_top_sorted (n : ℕ) (pairs : List (ℕ × ℕ)) :
    List.Pairwise pair_le (select_top n pairs) :=
  List.Pairwise.sublist (List.take_sublist _ _)
    (List.sorted_insertionSort pair_le pairs)

theorem select_top_length (n : ℕ) (pairs : List (ℕ × ℕ)) :
    (select_top n pairs).length = min n pairs.length := by
  unfold select_top
  rw [List.length_take, List.length_insertionSort]
  omega

theorem select_top_snd_nodup (n : ℕ) (pairs : List (ℕ × ℕ))
    (h : (pairs.map Prod.snd).Nodup) :
    ((select_top n pairs).map Prod.snd).Nodup := by
  have hperm : List.Perm ((List.insertionSort pair_le pairs).map Prod.snd)
      (pairs.map Prod.snd) :=
    (List.perm_insertionSort pair_le pairs).map Prod.snd
  have hsorted : ((List.insertionSort pair_le pairs).map Prod.snd).Nodup :=
    hperm.nodup_iff.mpr h
  refine List.Nodup.sublist ?_ hsorted
  rw [select_top]
  rw [List.map_take]
  exact List.take_sublist _ _

theorem sorted_snd_nodup_strict (l : List (ℕ × ℕ))
    (hs : List.Pairwise pair_le l) (hn : (l.map Prod.snd).Nodup) :
    List.Pairwise (fun a b : ℕ × ℕ => a.1 < b.1 ∨ (a.1 = b.1 ∧ a.2 < b.2)) l := by
  have hne : List.Pairwise (fun a b : ℕ × ℕ => a.2 ≠ b.2) l := List.pairwise_map.mp hn
  refine (hs.and hne).imp ?_
  intro a b hab
  obtain ⟨h1, h2⟩ := hab
  unfold pair_le at h1
  omega

/-- C4: for every index state, query vector, `n` and `search_k` (hence for every
built index and every query), the emitted rows have length
`min(n, number of distinct value-node candidates encountered by the traversal)`,
their `(distance, id)` pairs are strictly increasing in the lexicographic order
(distances ascending; equal distances ordered by ascending id), and the
returned distance vector is non-decreasing. -/
theorem c4_result_order (fuel : ℕ) (st : IndexState) (v : List ℕ) (n : ℕ) (sk : ℤ) :
    (get_nns_by_vector fuel st v n sk).1.length
        = min n (value_candidates st (traversal_cands fuel st v n sk)).length
    ∧ List.Pairwise (fun a b : ℕ × ℕ => a.1 < b.1 ∨ (a.1 = b.1 ∧ a.2 < b.2))
        (query_rows fuel st v n sk)
    ∧ List.Pairwise (· ≤ ·) (get_nns_by_vector fuel st v n sk).2 := by
  have hsndnodup : ((query_rows fuel st v n sk).map Prod.snd).Nodup := by
    unfold query_rows
    refine select_top_snd_nodup _ _ ?_
    rw [rerank_map_snd]
    exact value_candidates_nodup st _
  have hstrict : List.Pairwise (fun a b : ℕ × ℕ => a.1 < b.1 ∨ (a.1 = b.1 ∧ a.2 < b.2))
      (query_rows fuel st v n sk) := by
    refine sorted_snd_nodup_strict _ ?_ hsndnodup
    unfold query_rows
    exact select_top_sorted _ _
  refine ⟨?_, hstrict, ?_⟩
  · show ((query_rows fuel st v n sk).map Prod.snd).length = _
    rw [List.length_map]
    unfold query_rows
    rw [select_top_length]
    unfold rerank
    rw [List.length_map]
  · show List.Pairwise (· ≤ ·) ((query_rows fuel st v n sk).map Prod.fst)
    refine List.pairwise_map.mpr ?_
    refine hstrict.imp ?_
    intro a b hab
    omega

/-! ### Save / load (C5, C8) -/

/-- C5: the save/load round-trip is broken.  `load` memory-maps the node arena
with length `_s * _n_nodes` from FILE OFFSET 0 (jakubelib.h 477-481), so the
records it reads back start at the header words instead of the first node
record.  On the built one-item index `A` (item 0 has vector `[5]`), `save`
writes `header ‖ roots ‖ arena` and a fresh same-`f` index `B` loads it without
error - yet `get_item(B, 0) = [2]` (the word `nodes_size` of the header lands
in the value area of record 0) while `get_item(A, 0) = [5]`, refuting the
claimed agreement of `get_item` (and with it the claimed conjunction). -/
theorem c5_roundtrip_broken :
    oneItemState.built = true
    ∧ save oneItemState = some [1, 1, 1, 2, 1, 1, 0, 1, 0, 0, 5]
    ∧ (load (mkIndex 1) ((save oneItemState).getD [])).1 = none
    ∧ (load (mkIndex 1) ((save oneItemState).getD [])).2.built = true
    ∧ get_item (load (mkIndex 1) ((save oneItemState).getD [])).2 0 = [2]
    ∧ get_item oneItemState 0 = [5]
    ∧ get_item (load (mkIndex 1) ((save oneItemState).getD [])).2 0
        ≠ get_item oneItemState 0 := by decide

/-- C8: loading a file whose stored dimension differs from the index's `f`
fails with the dimension-mismatch error and leaves the index unloaded: the node
arena is released (NULL), the roots list is empty and the built flag is false
(`load` tears the state down with `unload` before reading, and the failure path
changes nothing further). -/
theorem c8_load_dim_mismatch (st : IndexState) (file : List ℕ) (ff : ℕ)
    (hhead : file.head? = some ff) (hne : ff ≠ st.f) :
    (load st file).1 = some LoadError.dimMismatch
    ∧ (load st file).2.nodes = []
    ∧ (load st file).2.roots = []
    ∧ (load st file).2.built = false := by
  unfold load
  rw [hhead]
  simp only [if_pos hne]
  exact ⟨trivial, rfl, rfl, rfl⟩

theorem c8_load_dim_mismatch_witness :
    ([1, 9, 9] : List ℕ).head? = some 1 ∧ (1 : ℕ) ≠ (mkIndex 2).f
    ∧ (load (mkIndex 2) [1, 9, 9]).1 = some LoadError.dimMismatch
    ∧ (load (mkIndex 2) [1, 9, 9]).2.nodes = []
    ∧ (load (mkIndex 2) [1, 9, 9]).2.roots = []
    ∧ (load (mkIndex 2) [1, 9, 9]).2.built = false := by
  refine ⟨by decide, by decide, ?_⟩
  exact c8_load_dim_mismatch (mkIndex 2) [1, 9, 9] 1 (by decide) (by decide)

/-! ### Hamming distance versus the spec formula (C7) -/

/-- The spec's distance formula (§3/§8: "sum of population counts of word-wise
XOR" of `get_item(i)` and `get_item(j)`, an integer in `[0, f*bits_per_word]`). -/
def plain_hamming (st : IndexState) (i j : ℕ) : ℕ :=
  ((List.range st.f).map
    (fun k => popcount32 ((get_item st i).getD k 0 ^^^ (get_item st j).getD k 0))).sum

/-- Number of words whose top bits differ between the two stored vectors - each
such word makes the sign extension add 32 to the distance. -/
def high_bit_mismatches (st : IndexState) (i j : ℕ) : ℕ :=
  ((List.range st.f).filter
    (fun k => ((get_item st i).getD k 0).testBit 31
      != ((get_item st j).getD k 0).testBit 31)).length

/-- An index state whose two items differ exactly in the top bit of their only
word: item 0 is `[2^31]`, item 1 is `[0]`. -/
def highBitState : IndexState :=
  { f := 1, n_items := 2, n_nodes := 2, nodes_size := 2,
    nodes := [⟨1, 0, 0, [2 ^ 31]⟩, ⟨1, 0, 0, [0]⟩],
    roots := [], K := 1, built := false }

theorem popcount32_le (w : ℕ) : popcount32 w ≤ 32 := by
  unfold popcount32
  calc ((List.range 32).filter (fun i => w.testBit i)).length
      ≤ (List.range 32).length := List.length_filter_le _ _
    _ = 32 := List.length_range 32

theorem two_pow_31_le_iff_testBit (w : ℕ) (hw : w < 2 ^ 32) :
    2 ^ 31 ≤ w ↔ w.testBit 31 = true := by
  rw [Nat.testBit_to_div_mod]
  simp only [decide_eq_true_eq]
  omega

theorem popcount_sext64_split (x y : ℕ) (hx : x < 2 ^ 32) (hy : y < 2 ^ 32) :
    popcount_sext64 (x ^^^ y)
      = popcount32 (x ^^^ y)
        + (if x.testBit 31 != y.testBit 31 then 32 else 0) := by
  have hxor : x ^^^ y < 2 ^ 32 := Nat.xor_lt_two_pow hx hy
  have hbit : (x ^^^ y).testBit 31 = (x.testBit 31 != y.testBit 31) :=
    Nat.testBit_xor x y 31
  unfold popcount_sext64
  by_cases hb : (x.testBit 31 != y.testBit 31) = true
  · rw [if_pos ((two_pow_31_le_iff_testBit _ hxor).mpr (hbit.trans hb)), hb, if_pos rfl]
    omega
  · have hb' : (x ^^^ y).testBit 31 = false := by
      rw [hbit]
      exact Bool.not_eq_true _ ▸ (by simpa using hb)
    rw [if_neg (fun hge => by
        have := (two_pow_31_le_iff_testBit _ hxor).mp hge
        rw [hb'] at this
        exact Bool.false_ne_true this)]
    rw [if_neg hb]
    omega

theorem getD_map_range (f : ℕ) (g : ℕ → ℕ) (k : ℕ) (h : k < f) :
    ((List.range f).map g).getD k 0 = g k := by
  rw [List.getD_eq_getElem?_getD, List.getElem?_map, List.getElem?_range h]
  rfl

theorem get_item_getD (st : IndexState) (i k : ℕ) (hk : k < st.f) :
    (get_item st i).getD k 0 = ((st.nodes.getD i padNode).v).getD k 0 := by
  unfold get_item
  exact getD_map_range _ _ _ hk

theorem getD_lt_of_all (v : List ℕ) (h : ∀ w ∈ v, w < 2 ^ 32) (k : ℕ) :
    v.getD k 0 < 2 ^ 32 := by
  rcases Nat.lt_or_ge k v.length with hk | hk
  · rw [List.getD_eq_getElem _ _ hk]
    exact h _ (List.getElem_mem hk)
  · rw [List.getD_eq_default _ _ hk]
    exact Nat.pos_pow_of_pos 32 (by omega)

theorem sum_map_add_distrib (l : List ℕ) (A B : ℕ → ℕ) :
    (l.map (fun k => A k + B k)).sum = (l.map A).sum + (l.map B).sum := by
  induction l with
  | nil => rfl
  | cons h t ih =>
    simp only [List.map_cons, List.sum_cons, ih]
    omega

theorem sum_map_ite (l : List ℕ) (p : ℕ → Bool) (c : ℕ) :
    (l.map (fun k => if p k then c else 0)).sum = c * (l.filter p).length := by
  induction l with
  | nil => rfl
  | cons h t ih =>
    simp only [List.map_cons, List.sum_cons, List.filter_cons]
    by_cases hp : p h
    · rw [if_pos hp, if_pos hp, List.length_cons, ih, Nat.mul_succ]
      omega
    · rw [if_neg hp, if_neg hp, ih]
      omega

/-- C7 (amended): `get_distance(i, j)` equals the spec's word-wise
popcount-of-XOR PLUS `32` for every word on which the two stored vectors differ
in the top bit - `__builtin_popcountll` receives the sign-extended `int32_t`
XOR - and lies in `[0, f*64]`, twice the claimed range.  Exactly when no word
pair differs in bit 31 it coincides with the claimed
`popcount(xor(get_item(i), get_item(j)))` and is bounded by `f*32`. -/
theorem c7_distance_decomposition (st : IndexState) (i j : ℕ)
    (hi : ∀ w ∈ (st.nodes.getD i padNode).v, w < 2 ^ 32)
    (hj : ∀ w ∈ (st.nodes.getD j padNode).v, w < 2 ^ 32) :
    get_distance st i j = plain_hamming st i j + 32 * high_bit_mismatches st i j
    ∧ get_distance st i j ≤ st.f * 64
    ∧ (high_bit_mismatches st i j = 0 →
        get_distance st i j = plain_hamming st i j
        ∧ get_distance st i j ≤ st.f * 32) := by
  have key : ∀ k ∈ List.range st.f,
      popcount_sext64 (((st.nodes.getD i padNode).v).getD k 0
          ^^^ ((st.nodes.getD j padNode).v).getD k 0)
        = popcount32 ((get_item st i).getD k 0 ^^^ (get_item st j).getD k 0)
          + (if ((get_item st i).getD k 0).testBit 31
                != ((get_item st j).getD k 0).testBit 31 then 32 else 0) := by
    intro k hk
    rw [List.mem_range] at hk
    rw [get_item_getD st i k hk, get_item_getD st j k hk]
    exact popcount_sext64_split _ _ (getD_lt_of_all _ hi k) (getD_lt_of_all _ hj k)
  have main : get_distance st i j
      = plain_hamming st i j + 32 * high_bit_mismatches st i j := by
    unfold get_distance hamming_distance
    rw [List.map_congr_left key, sum_map_add_distrib, sum_map_ite]
    rfl
  have hplain : plain_hamming st i j ≤ st.f * 32 := by
    have hb := List.sum_le_card_nsmul
      ((List.range st.f).map
        (fun k => popcount32 ((get_item st i).getD k 0 ^^^ (get_item st j).getD k 0)))
      32 (by
        intro x hx
        rcases List.mem_map.mp hx with ⟨k, _, rfl⟩
        exact popcount32_le _)
    simpa [plain_hamming, List.length_map, List.length_range, smul_eq_mul] using hb
  have hmis : high_bit_mismatches st i j ≤ st.f := by
    unfold high_bit_mismatches
    calc ((List.range st.f).filter _).length
        ≤ (List.range st.f).length := List.length_filter_le _ _
      _ = st.f := List.length_range st.f
  refine ⟨main, by omega, fun hz => ⟨by omega, by omega⟩⟩

theorem c7_distance_decomposition_witness :
    get_distance twoItemState 0 1
        = plain_hamming twoItemState 0 1 + 32 * high_bit_mismatches twoItemState 0 1
    ∧ get_distance twoItemState 0 1 ≤ twoItemState.f * 64
    ∧ get_distance twoItemState 0 1 = plain_hamming twoItemState 0 1
    ∧ get_distance twoItemState 0 1 ≤ twoItemState.f * 32 := by
  have h := c7_distance_decomposition twoItemState 0 1 (by decide) (by decide)
  exact ⟨h.1, h.2.1, (h.2.2 (by decide)).1, (h.2.2 (by decide)).2⟩

/-- C7 counterexample: with `f = 1`, items `[2^31]` and `[0]` (top bits differ),
`get_distance` returns `33`, while the claimed formula
`popcount(xor(get_item(0), get_item(1)))` is `1`, and `33` also exceeds the
claimed upper bound `f * bits_per_word = 32`. -/
theorem c7_counterexample :
    get_distance highBitState 0 1 = 33
    ∧ plain_hamming highBitState 0 1 = 1
    ∧ get_distance highBitState 0 1 ≠ plain_hamming highBitState 0 1
    ∧ ¬ get_distance highBitState 0 1 ≤ highBitState.f * 32 := by decide

/-! ### add_item semantics (C10) -/

theorem getD_append_replicate_pad (l : List HNode) (m k : ℕ) :
    (l ++ List.replicate m padNode).getD k padNode = l.getD k padNode := by
  rw [List.getD_eq_getElem?_getD, List.getD_eq_getElem?_getD]
  rcases Nat.lt_or_ge k l.length with hk | hk
  · rw [List.getElem?_append_left hk]
  · rw [List.getElem?_append_right hk, List.getElem?_replicate,
        List.getElem?_eq_none hk]
    split_ifs <;> rfl

theorem allocate_size_built (st : IndexState) (n : ℕ) :
    (allocate_size st n).built = st.built := by
  unfold allocate_size
  split_ifs <;> rfl

theorem allocate_size_f (st : IndexState) (n : ℕ) :
    (allocate_size st n).f = st.f := by
  unfold allocate_size
  split_ifs <;> rfl

theorem allocate_size_n_items (st : IndexState) (n : ℕ) :
    (allocate_size st n).n_items = st.n_items := by
  unfold allocate_size
  split_ifs <;> rfl

theorem allocate_size_getD (st : IndexState) (n k : ℕ) :
    (allocate_size st n).nodes.getD k padNode = st.nodes.getD k padNode := by
  unfold allocate_size
  split_ifs
  · exact getD_append_replicate_pad _ _ _
  · rfl

theorem allocate_size_len (st : IndexState) (n : ℕ)
    (h : st.nodes.length = st.nodes_size) :
    (allocate_size st n).nodes.length = (allocate_size st n).nodes_size
    ∧ n ≤ (allocate_size st n).nodes_size
    ∧ st.nodes_size ≤ (allocate_size st n).nodes_size := by
  unfold allocate_size
  split_ifs with hh
  · simp only [List.length_append, List.length_replicate]
    omega
  · exact ⟨h, by omega, le_rfl⟩

theorem add_item_spec (st : IndexState) (item : ℕ) (w : List ℕ)
    (hb : st.built = false) (hlen : st.nodes.length = st.nodes_size) :
    ∃ st', add_item st item w = some st'
      ∧ st'.built = false
      ∧ st'.f = st.f
      ∧ st'.n_items = max st.n_items (item + 1)
      ∧ st'.nodes.length = st'.nodes_size
      ∧ item + 1 ≤ st'.nodes_size
      ∧ st.nodes_size ≤ st'.nodes_size
      ∧ (∀ k, k ≠ item → st'.nodes.getD k padNode = st.nodes.getD k padNode)
      ∧ st'.nodes.getD item padNode
          = { (st.nodes.getD item padNode) with nd := 1, v := (List.range st.f).map (fun q => w.getD q 0) } := by
  have hne : ¬(st.built = true) := by
    rw [hb]
    exact Bool.false_ne_true
  have hal := allocate_size_len st (item + 1) hlen
  have hitem : item < (allocate_size st (item + 1)).nodes.length := by omega
  simp only [add_item]
  rw [if_neg hne]
  rw [allocate_size_n_items]
  have hsetlen :
      ((allocate_size st (item + 1)).nodes.set item
        { ((allocate_size st (item + 1)).nodes.getD item padNode) with nd := 1, v := (List.range st.f).map (fun q => w.getD q 0) }).length
        = (allocate_size st (item + 1)).nodes.length := List.length_set _ _ _
  have hgetne : ∀ k, k ≠ item →
      ((allocate_size st (item + 1)).nodes.set item
        { ((allocate_size st (item + 1)).nodes.getD item padNode) with nd := 1, v := (List.range st.f).map (fun q => w.getD q 0) }).getD k padNode
        = st.nodes.getD k padNode := by
    intro k hk
    rw [List.getD_eq_getElem?_getD, List.getElem?_set_ne (Ne.symm hk),
        ← List.getD_eq_getElem?_getD, allocate_size_getD]
  have hgeteq :
      ((allocate_size st (item + 1)).nodes.set item
        { ((allocate_size st (item + 1)).nodes.getD item padNode) with nd := 1, v := (List.range st.f).map (fun q => w.getD q 0) }).getD item padNode
        = { (st.nodes.getD item padNode) with nd := 1, v := (List.range st.f).map (fun q => w.getD q 0) } := by
    rw [List.getD_eq_getElem?_getD, List.getElem?_set_self hitem, Option.getD_some,
        allocate_size_getD]
  split_ifs with hca
  · refine ⟨_, rfl, ?_, ?_, ?_, ?_, ?_, ?_, hgetne, hgeteq⟩
    · exact (allocate_size_built st _).trans hb
    · exact allocate_size_f st _
    · show item + 1 = max st.n_items (item + 1)
      omega
    · show _ = (allocate_size st (item + 1)).nodes_size
      rw [hsetlen]
      exact hal.1
    · exact hal.2.1
    · exact hal.2.2
  · refine ⟨_, rfl, ?_, ?_, ?_, ?_, ?_, ?_, hgetne, hgeteq⟩
    · exact (allocate_size_built st _).trans hb
    · exact allocate_size_f st _
    · show st.n_items = max st.n_items (item + 1)
      omega
    · show _ = (allocate_size st (item + 1)).nodes_size
      rw [hsetlen]
      exact hal.1
    · exact hal.2.1
    · exact hal.2.2

theorem apply_adds_spec (l : List (ℕ × List ℕ)) :
    ∀ st : IndexState, st.built = false → st.nodes.length = st.nodes_size →
      (apply_adds st l).built = false
      ∧ (apply_adds st l).f = st.f
      ∧ (apply_adds st l).nodes.length = (apply_adds st l).nodes_size
      ∧ (apply_adds st l).n_items = l.foldl (fun a p => max a (p.1 + 1)) st.n_items := by
  induction l with
  | nil =>
    intro st hb hl
    exact ⟨hb, rfl, hl, rfl⟩
  | cons p t ih =>
    intro st hb hl
    obtain ⟨st', hsome, hb', hf', hn', hlen', _, _, _, _⟩ :=
      add_item_spec st p.1 p.2 hb hl
    have hstep : apply_adds st (p :: t) = apply_adds st' t := by
      show apply_adds ((add_item st p.1 p.2).getD st) t = _
      rw [hsome]
      rfl
    obtain ⟨ihb, ihf, ihlen, ihn⟩ := ih st' hb' hlen'
    rw [hstep]
    refine ⟨ihb, ihf.trans hf', ihlen, ?_⟩
    rw [ihn, hn']
    rfl

theorem foldl_max_init_le (l : List (ℕ × List ℕ)) :
    ∀ a : ℕ, a ≤ l.foldl (fun acc p => max acc (p.1 + 1)) a := by
  induction l with
  | nil => intro a; exact le_rfl
  | cons p t ih =>
    intro a
    exact le_trans (le_max_left a (p.1 + 1)) (ih _)

theorem mem_lt_foldl_max (l : List (ℕ × List ℕ)) (i : ℕ) :
    ∀ a : ℕ, i ∈ l.map Prod.fst → i < l.foldl (fun acc p => max acc (p.1 + 1)) a := by
  induction l with
  | nil =>
    intro a h
    exact absurd h (by simp)
  | cons p t ih =>
    intro a h
    rw [List.map_cons] at h
    rcases List.mem_cons.mp h with hh | hh
    · have h1 : i < max a (i + 1) := lt_of_lt_of_le (Nat.lt_succ_self i)
        (le_max_right a (i + 1))
      calc i < max a (i + 1) := h1
        _ ≤ t.foldl (fun acc p => max acc (p.1 + 1)) (max a (i + 1)) :=
            foldl_max_init_le t _
        _ = t.foldl (fun acc p => max acc (p.1 + 1)) (max a (p.1 + 1)) := by rw [hh]
    · exact ih _ hh

theorem foldl_max_succ (l : List (ℕ × List ℕ)) :
    ∀ a : ℕ, l.foldl (fun acc p => max acc (p.1 + 1)) (a + 1)
      = (l.foldl (fun acc p => max acc p.1) a) + 1 := by
  induction l with
  | nil => intro a; rfl
  | cons p t ih =>
    intro a
    show t.foldl _ (max (a + 1) (p.1 + 1)) = (t.foldl _ (max a p.1)) + 1
    rw [show max (a + 1) (p.1 + 1) = (max a p.1) + 1 by omega]
    exact ih _

theorem foldl_max_eq (l : List (ℕ × List ℕ)) (hne : l ≠ []) :
    l.foldl (fun acc p => max acc (p.1 + 1)) 0
      = ((l.map Prod.fst).foldl max 0) + 1 := by
  cases l with
  | nil => exact absurd rfl hne
  | cons p t =>
    show t.foldl _ (max 0 (p.1 + 1)) = _
    rw [show max 0 (p.1 + 1) = p.1 + 1 by omega, foldl_max_succ]
    rw [List.map_cons, List.foldl_cons, List.foldl_map]
    rw [show max 0 p.1 = p.1 by omega]

theorem get_item_congr (st st' : IndexState) (j : ℕ) (hf : st'.f = st.f)
    (hnode : st'.nodes.getD j padNode = st.nodes.getD j padNode) :
    get_item st' j = get_item st j := by
  unfold get_item
  rw [hf, hnode]

/-- C10: after any non-empty sequence of successful `add_item` calls on a fresh
(unbuilt) index, `n_items` is one plus the largest id added; re-adding an id
`i` that was already added succeeds, overwrites item `i`'s stored vector in
place (truncated/zero-padded to the `f` words the node stores), and leaves
`n_items` and every other slot's stored vector unchanged. -/
theorem c10_add_item_semantics (f0 : ℕ) (adds : List (ℕ × List ℕ)) (i j : ℕ)
    (w : List ℕ) (hne : adds ≠ []) (hmem : i ∈ adds.map Prod.fst) (hji : j ≠ i) :
    (apply_adds (mkIndex f0) adds).n_items = ((adds.map Prod.fst).foldl max 0) + 1
    ∧ (add_item (apply_adds (mkIndex f0) adds) i w).isSome = true
    ∧ ((add_item (apply_adds (mkIndex f0) adds) i w).getD
        (apply_adds (mkIndex f0) adds)).n_items = (apply_adds (mkIndex f0) adds).n_items
    ∧ get_item ((add_item (apply_adds (mkIndex f0) adds) i w).getD
        (apply_adds (mkIndex f0) adds)) i = (List.range f0).map (fun k => w.getD k 0)
    ∧ get_item ((add_item (apply_adds (mkIndex f0) adds) i w).getD
        (apply_adds (mkIndex f0) adds)) j = get_item (apply_adds (mkIndex f0) adds) j := by
  obtain ⟨hb, hf, hlen, hn⟩ := apply_adds_spec adds (mkIndex f0) rfl rfl
  have hform : (apply_adds (mkIndex f0) adds).n_items
      = ((adds.map Prod.fst).foldl max 0) + 1 := by
    rw [hn]
    exact foldl_max_eq adds hne
  have hilt : i < (apply_adds (mkIndex f0) adds).n_items := by
    rw [hn]
    exact mem_lt_foldl_max adds i 0 hmem
  obtain ⟨st', hsome, hb', hf', hn', hlen', _, _, hgetne, hgeteq⟩ :=
    add_item_spec (apply_adds (mkIndex f0) adds) i w hb hlen
  have hff : (apply_adds (mkIndex f0) adds).f = f0 := hf
  rw [hsome]
  simp only [Option.getD_some, Option.isSome_some]
  refine ⟨hform, trivial, by omega, ?_, ?_⟩
  · unfold get_item
    rw [hf', hff, hgeteq]
    refine List.map_congr_left ?_
    intro k hk
    rw [List.mem_range] at hk
    show ((List.range (apply_adds (mkIndex f0) adds).f).map
      (fun q => w.getD q 0)).getD k 0 = w.getD k 0
    rw [hff]
    exact getD_map_range _ _ _ hk
  · exact get_item_congr _ _ j hf' (hgetne j hji)

theorem c10_add_item_semantics_witness :
    (apply_adds (mkIndex 1) [(0, [5]), (2, [7])]).n_items
        = (([(0, [5]), (2, [7])].map Prod.fst).foldl max 0) + 1
    ∧ (add_item (apply_adds (mkIndex 1) [(0, [5]), (2, [7])]) 0 [9]).isSome = true
    ∧ ((add_item (apply_adds (mkIndex 1) [(0, [5]), (2, [7])]) 0 [9]).getD
        (apply_adds (mkIndex 1) [(0, [5]), (2, [7])])).n_items
        = (apply_adds (mkIndex 1) [(0, [5]), (2, [7])]).n_items
    ∧ get_item ((add_item (apply_adds (mkIndex 1) [(0, [5]), (2, [7])]) 0 [9]).getD
        (apply_adds (mkIndex 1) [(0, [5]), (2, [7])])) 0
        = (List.range 1).map (fun k => ([9] : List ℕ).getD k 0)
    ∧ get_item ((add_item (apply_adds (mkIndex 1) [(0, [5]), (2, [7])]) 0 [9]).getD
        (apply_adds (mkIndex 1) [(0, [5]), (2, [7])])) 2
        = get_item (apply_adds (mkIndex 1) [(0, [5]), (2, [7])]) 2 :=
  c10_add_item_semantics 1 [(0, [5]), (2, [7])] 0 2 [9] (by decide) (by decide)
    (by decide)

end Jakube

